import Mathlib

/-!
Shallow embedding of the Gmail digest tool (files `gmail_ai_summarizer.py` and
`gmail_url_extractor.py`): the URL-extraction regex scan, the email-content
normalization pipeline, the body-selection loop, and the digest aggregation
(`create_digest`) of both variants, together with theorems settling the claims
about them.
-/

section ListHelpers

variable {α : Type*} [DecidableEq α]

/-- First-occurrence deduplication relative to the keys in `seen`.  Models the
iteration order of a Python dict built by repeated insertion, and (as a
deterministic representative) the list produced by `list(set(xs))`. -/
def firstSeenFrom (seen : List α) : List α → List α
  | [] => []
  | a :: l =>
    if a ∈ seen then firstSeenFrom seen l
    else a :: firstSeenFrom (seen ++ [a]) l

/-- First-occurrence deduplication of a list. -/
def firstSeen (l : List α) : List α := firstSeenFrom [] l

theorem mem_firstSeenFrom : ∀ (l seen : List α) (a : α),
    a ∈ firstSeenFrom seen l ↔ (a ∈ l ∧ a ∉ seen) := by
  intro l
  induction l with
  | nil => intro seen a; simp [firstSeenFrom]
  | cons b l ih =>
    intro seen a
    by_cases hb : b ∈ seen
    · rw [firstSeenFrom, if_pos hb, ih]
      constructor
      · rintro ⟨h1, h2⟩; exact ⟨List.mem_cons_of_mem _ h1, h2⟩
      · rintro ⟨h1, h2⟩
        rcases List.mem_cons.1 h1 with h1 | h1
        · subst h1; exact absurd hb h2
        · exact ⟨h1, h2⟩
    · rw [firstSeenFrom, if_neg hb]
      by_cases hab : a = b
      · subst hab
        constructor
        · intro _; exact ⟨List.mem_cons_self _ _, hb⟩
        · intro _; exact List.mem_cons_self _ _
      · constructor
        · intro h
          rcases List.mem_cons.1 h with h | h
          · exact absurd h hab
          · rcases (ih _ a).1 h with ⟨h1, h2⟩
            refine ⟨List.mem_cons_of_mem _ h1, fun hc => h2 ?_⟩
            exact List.mem_append.2 (Or.inl hc)
        · rintro ⟨h1, h2⟩
          rcases List.mem_cons.1 h1 with h1 | h1
          · exact absurd h1 hab
          · refine List.mem_cons_of_mem _ ((ih _ a).2 ⟨h1, ?_⟩)
            intro hc
            rcases List.mem_append.1 hc with hc | hc
            · exact h2 hc
            · exact hab (List.mem_singleton.1 hc)

theorem nodup_firstSeenFrom : ∀ (l seen : List α), (firstSeenFrom seen l).Nodup := by
  intro l
  induction l with
  | nil => intro seen; simp [firstSeenFrom]
  | cons b l ih =>
    intro seen
    by_cases hb : b ∈ seen
    · rw [firstSeenFrom, if_pos hb]; exact ih seen
    · rw [firstSeenFrom, if_neg hb]
      refine List.nodup_cons.2 ⟨fun hc => ?_, ih _⟩
      rcases (mem_firstSeenFrom _ _ _).1 hc with ⟨_, h2⟩
      exact h2 (List.mem_append.2 (Or.inr (List.mem_singleton.2 rfl)))

theorem length_firstSeenFrom_le : ∀ (l seen : List α),
    (firstSeenFrom seen l).length ≤ l.length := by
  intro l
  induction l with
  | nil => intro seen; simp [firstSeenFrom]
  | cons b l ih =>
    intro seen
    by_cases hb : b ∈ seen
    · rw [firstSeenFrom, if_pos hb]
      exact Nat.le_succ_of_le (ih seen)
    · rw [firstSeenFrom, if_neg hb]
      simpa using ih (seen ++ [b])

theorem mem_firstSeen (l : List α) (a : α) : a ∈ firstSeen l ↔ a ∈ l := by
  rw [firstSeen, mem_firstSeenFrom]; simp

theorem nodup_firstSeen (l : List α) : (firstSeen l).Nodup :=
  nodup_firstSeenFrom l []

theorem length_firstSeen_le (l : List α) : (firstSeen l).length ≤ l.length :=
  length_firstSeenFrom_le l []

/-- One step of the Python idiom `d[k] = d.get(k, 0) + 1` on an
insertion-ordered dict represented as an association list: an existing key is
incremented in place, a new key is appended with count 1. -/
def bump (acc : List (α × Nat)) (a : α) : List (α × Nat) :=
  if a ∈ acc.map Prod.fst then
    acc.map (fun p => if p.1 = a then (p.1, p.2 + 1) else p)
  else acc ++ [(a, 1)]

/-- The insertion-ordered occurrence-count dict built by the Python loop
`for x in l: d[x] = d.get(x, 0) + 1`. -/
def keyCounts (l : List α) : List (α × Nat) := l.foldl bump []

/-- Number of occurrences of `a` in a list. -/
def countOcc (a : α) : List α → Nat
  | [] => 0
  | b :: l => (if b = a then 1 else 0) + countOcc a l

theorem map_congr_mem {β : Type*} {f g : α → β} :
    ∀ {l : List α}, (∀ a ∈ l, f a = g a) → l.map f = l.map g := by
  intro l
  induction l with
  | nil => intro _; rfl
  | cons b l ih =>
    intro h
    simp only [List.map_cons]
    rw [h b (List.mem_cons_self _ _), ih (fun a ha => h a (List.mem_cons_of_mem _ ha))]

theorem foldl_bump_eq : ∀ (l : List α) (acc : List (α × Nat)),
    l.foldl bump acc =
      acc.map (fun p => (p.1, p.2 + countOcc p.1 l)) ++
        (firstSeenFrom (acc.map Prod.fst) l).map (fun k => (k, countOcc k l)) := by
  intro l
  induction l with
  | nil =>
    intro acc
    simp only [List.foldl_nil, firstSeenFrom, List.map_nil, List.append_nil, countOcc]
    have : (fun p : α × Nat => (p.1, p.2 + 0)) = fun p => p := by
      funext p; simp
    rw [this, List.map_id']
  | cons a l ih =>
    intro acc
    rw [List.foldl_cons, ih]
    by_cases ha : a ∈ acc.map Prod.fst
    · have hkeys : (bump acc a).map Prod.fst = acc.map Prod.fst := by
        rw [bump, if_pos ha, List.map_map]
        refine map_congr_mem (fun p _ => ?_)
        by_cases hp : p.1 = a <;> simp [Function.comp, hp]
      have hmap : (bump acc a).map (fun p => (p.1, p.2 + countOcc p.1 l)) =
          acc.map (fun p => (p.1, p.2 + countOcc p.1 (a :: l))) := by
        rw [bump, if_pos ha, List.map_map]
        refine map_congr_mem (fun p _ => ?_)
        by_cases hp : p.1 = a
        · subst hp
          simp [Function.comp, countOcc]
          omega
        · have hap : ¬ (a = p.1) := fun hc => hp hc.symm
          simp only [Function.comp, countOcc, hp, hap, if_false, Prod.mk.injEq,
            true_and, if_neg, ite_false]
          omega
      have hfs : firstSeenFrom (acc.map Prod.fst) (a :: l) =
          firstSeenFrom (acc.map Prod.fst) l := by
        rw [firstSeenFrom, if_pos ha]
      have hfsmap : (firstSeenFrom (acc.map Prod.fst) l).map
            (fun k => (k, countOcc k l)) =
          (firstSeenFrom (acc.map Prod.fst) l).map
            (fun k => (k, countOcc k (a :: l))) := by
        refine map_congr_mem (fun k hk => ?_)
        rcases (mem_firstSeenFrom _ _ _).1 hk with ⟨_, hnot⟩
        have hka : ¬ (a = k) := fun hc => hnot (hc ▸ ha)
        simp [countOcc, if_neg hka]
      rw [hkeys, hmap, hfs, ← hfsmap]
    · have hkeys : (bump acc a).map Prod.fst = acc.map Prod.fst ++ [a] := by
        rw [bump, if_neg ha]; simp
      have hfs : firstSeenFrom (acc.map Prod.fst) (a :: l) =
          a :: firstSeenFrom (acc.map Prod.fst ++ [a]) l := by
        rw [firstSeenFrom, if_neg ha]
      rw [hkeys, hfs, bump, if_neg ha]
      simp only [List.map_append, List.map_cons, List.map_nil]
      have h1 : acc.map (fun p => (p.1, p.2 + countOcc p.1 l)) =
          acc.map (fun p => (p.1, p.2 + countOcc p.1 (a :: l))) := by
        refine map_congr_mem (fun p hp => ?_)
        have : p.1 ∈ acc.map Prod.fst := List.mem_map.2 ⟨p, hp, rfl⟩
        have hpa : ¬ (a = p.1) := fun hc => ha (hc ▸ this)
        simp [countOcc, if_neg hpa]
      have h2 : (a, 1 + countOcc a l) = (a, countOcc a (a :: l)) := by
        simp [countOcc]
      have h3 : (firstSeenFrom (acc.map Prod.fst ++ [a]) l).map
            (fun k => (k, countOcc k l)) =
          (firstSeenFrom (acc.map Prod.fst ++ [a]) l).map
            (fun k => (k, countOcc k (a :: l))) := by
        refine map_congr_mem (fun k hk => ?_)
        rcases (mem_firstSeenFrom _ _ _).1 hk with ⟨_, hnot⟩
        have hka : ¬ (a = k) := by
          intro hc
          exact hnot (List.mem_append.2 (Or.inr (List.mem_singleton.2 hc.symm)))
        simp [countOcc, if_neg hka]
      rw [h1, ← h2, ← h3]
      simp

/-- The Python counting loop groups by key: the resulting dict lists each
distinct key once, in order of first appearance, paired with its number of
occurrences. -/
theorem keyCounts_eq (l : List α) :
    keyCounts l = (firstSeen l).map (fun k => (k, countOcc k l)) := by
  rw [keyCounts, foldl_bump_eq l []]
  simp [firstSeen]

/-- Insert into a list sorted by descending count, after every entry whose
count is strictly larger: together with `sortByCountDesc` this is a stable
descending sort, the behavior of Python's
`sorted(d.items(), key=lambda x: x[1], reverse=True)`. -/
def insertByCountDesc (x : α × Nat) : List (α × Nat) → List (α × Nat)
  | [] => [x]
  | y :: ys => if x.2 < y.2 then y :: insertByCountDesc x ys else x :: y :: ys

/-- Stable sort by descending count (insertion sort; equal counts keep their
original relative order). -/
def sortByCountDesc : List (α × Nat) → List (α × Nat)
  | [] => []
  | x :: xs => insertByCountDesc x (sortByCountDesc xs)

theorem mem_insertByCountDesc {x z : α × Nat} :
    ∀ {l : List (α × Nat)}, z ∈ insertByCountDesc x l → z = x ∨ z ∈ l := by
  intro l
  induction l with
  | nil => intro h; simpa [insertByCountDesc] using h
  | cons y ys ih =>
    intro h
    rw [insertByCountDesc] at h
    by_cases hc : x.2 < y.2
    · rw [if_pos hc] at h
      rcases List.mem_cons.1 h with h | h
      · exact Or.inr (h ▸ List.mem_cons_self _ _)
      · rcases ih h with h | h
        · exact Or.inl h
        · exact Or.inr (List.mem_cons_of_mem _ h)
    · rw [if_neg hc] at h
      rcases List.mem_cons.1 h with h | h
      · exact Or.inl h
      · exact Or.inr h

theorem pairwise_insertByCountDesc {x : α × Nat} :
    ∀ {l : List (α × Nat)},
      l.Pairwise (fun p q => q.2 ≤ p.2) →
      (insertByCountDesc x l).Pairwise (fun p q => q.2 ≤ p.2) := by
  intro l
  induction l with
  | nil => intro _; simp [insertByCountDesc]
  | cons y ys ih =>
    intro h
    rw [insertByCountDesc]
    rcases List.pairwise_cons.1 h with ⟨hy, hys⟩
    by_cases hc : x.2 < y.2
    · rw [if_pos hc]
      refine List.pairwise_cons.2 ⟨fun z hz => ?_, ih hys⟩
      rcases mem_insertByCountDesc hz with hz | hz
      · exact hz ▸ Nat.le_of_lt hc
      · exact hy z hz
    · rw [if_neg hc]
      refine List.pairwise_cons.2 ⟨fun z hz => ?_, h⟩
      rcases List.mem_cons.1 hz with hz | hz
      · subst hz; omega
      · exact Nat.le_trans (hy z hz) (by omega)

theorem pairwise_sortByCountDesc :
    ∀ (l : List (α × Nat)),
      (sortByCountDesc l).Pairwise (fun p q => q.2 ≤ p.2) := by
  intro l
  induction l with
  | nil => simp [sortByCountDesc]
  | cons x xs ih => exact pairwise_insertByCountDesc ih

end ListHelpers

section UrlRegex

/-- The set of characters the regex
`http[s]?://(?:[a-zA-Z]|[0-9]|[$-_@.&+]|[!*\\(\\),]|(?:%[0-9a-fA-F][0-9a-fA-F]))+`
accepts after the scheme.  `[$-_@.&+]` contains the character RANGE `$`..`_`
(0x24-0x5F), which already covers `@ . & + %` and much more; `[!*\\(\\),]` is
the set `! * \ ( ) ,`; the `%XX` alternative adds nothing beyond `%`, which the
range already accepts, so the repeated group matches exactly runs over this
character union. -/
def allowedUrlChar (c : Char) : Bool :=
  ('a' ≤ c && c ≤ 'z') || ('A' ≤ c && c ≤ 'Z') ||
  ('0' ≤ c && c ≤ '9') ||
  ('$' ≤ c && c ≤ '_') ||
  (c == '!' || c == '*' || c == '\\' || c == '(' || c == ')' || c == ',')

def httpChars : List Char := "http://".data

def httpsChars : List Char := "https://".data

/-- One attempted regex match at the head of `l`: the scheme prefix (the
greedy `[s]?` prefers `https://`; the two prefixes differ at index 4, so at
most one can apply) followed by a maximal nonempty run of allowed characters.
Returns the match and the rest of the input after it. -/
def urlMatchAt (l : List Char) : Option (List Char × List Char) :=
  if l.take 8 = httpsChars then
    if (l.drop 8).takeWhile allowedUrlChar = [] then none
    else some (httpsChars ++ (l.drop 8).takeWhile allowedUrlChar,
               (l.drop 8).dropWhile allowedUrlChar)
  else if l.take 7 = httpChars then
    if (l.drop 7).takeWhile allowedUrlChar = [] then none
    else some (httpChars ++ (l.drop 7).takeWhile allowedUrlChar,
               (l.drop 7).dropWhile allowedUrlChar)
  else none

/-- `re.findall` scan: try a match at each position, emit it and resume after
the match, otherwise advance one character.  `fuel` bounds the recursion; the
callers pass the input length, which suffices since every step consumes at
least one character. -/
def findAllUrls : Nat → List Char → List (List Char)
  | 0, _ => []
  | _ + 1, [] => []
  | fuel + 1, c :: rest =>
    match urlMatchAt (c :: rest) with
    | some (u, rem) => u :: findAllUrls fuel rem
    | none => findAllUrls fuel rest

theorem mem_takeWhile_true {α : Type*} {p : α → Bool} :
    ∀ {l : List α} {a : α}, a ∈ l.takeWhile p → p a = true := by
  intro l
  induction l with
  | nil => intro a h; simp [List.takeWhile] at h
  | cons b l ih =>
    intro a h
    rw [List.takeWhile] at h
    by_cases hb : p b
    · rw [hb] at h
      simp only [List.mem_cons] at h
      rcases h with h | h
      · exact h ▸ hb
      · exact ih h
    · simp only [Bool.not_eq_true] at hb
      rw [hb] at h
      simp at h

theorem head_dropWhile_false {α : Type*} {p : α → Bool} :
    ∀ (l : List α) (a : α), (l.dropWhile p).head? = some a → p a = false := by
  intro l
  induction l with
  | nil => intro a h; simp [List.dropWhile] at h
  | cons b l ih =>
    intro a h
    rw [List.dropWhile] at h
    by_cases hb : p b
    · rw [hb] at h
      exact ih a h
    · simp only [Bool.not_eq_true] at hb
      rw [hb] at h
      simp only [List.head?_cons, Option.some.injEq] at h
      exact h ▸ hb

theorem urlMatchAt_shape {l u rem : List Char}
    (h : urlMatchAt l = some (u, rem)) :
    ∃ run, run ≠ [] ∧ (∀ c ∈ run, allowedUrlChar c = true) ∧
      (u = httpsChars ++ run ∨ u = httpChars ++ run) ∧
      (∀ c, rem.head? = some c → allowedUrlChar c = false) := by
  rw [urlMatchAt] at h
  by_cases h8 : l.take 8 = httpsChars
  · rw [if_pos h8] at h
    by_cases he : (l.drop 8).takeWhile allowedUrlChar = []
    · rw [if_pos he] at h; exact absurd h (by simp)
    · rw [if_neg he] at h
      refine ⟨(l.drop 8).takeWhile allowedUrlChar, he,
        fun c hc => mem_takeWhile_true hc, ?_, ?_⟩
      · exact Or.inl (by injection h with h1; injection h1 with h2 h3; exact h2.symm)
      · injection h with h1; injection h1 with h2 h3
        intro c hc
        exact head_dropWhile_false _ c (h3 ▸ hc)
  · rw [if_neg h8] at h
    by_cases h7 : l.take 7 = httpChars
    · rw [if_pos h7] at h
      by_cases he : (l.drop 7).takeWhile allowedUrlChar = []
      · rw [if_pos he] at h; exact absurd h (by simp)
      · rw [if_neg he] at h
        refine ⟨(l.drop 7).takeWhile allowedUrlChar, he,
          fun c hc => mem_takeWhile_true hc, ?_, ?_⟩
        · exact Or.inr (by injection h with h1; injection h1 with h2 h3; exact h2.symm)
        · injection h with h1; injection h1 with h2 h3
          intro c hc
          exact head_dropWhile_false _ c (h3 ▸ hc)
    · rw [if_neg h7] at h
      exact absurd h (by simp)

theorem findAllUrls_shape : ∀ (fuel : Nat) (l : List Char) (u : List Char),
    u ∈ findAllUrls fuel l →
    ∃ run, run ≠ [] ∧ (∀ c ∈ run, allowedUrlChar c = true) ∧
      (u = httpsChars ++ run ∨ u = httpChars ++ run) := by
  intro fuel
  induction fuel with
  | zero => intro l u h; simp [findAllUrls] at h
  | succ f ih =>
    intro l u h
    match l with
    | [] => simp [findAllUrls] at h
    | c :: rest =>
      rw [findAllUrls] at h
      rcases hm : urlMatchAt (c :: rest) with _ | ⟨u1, rem⟩
      · rw [hm] at h
        exact ih rest u h
      · rw [hm] at h
        rcases List.mem_cons.1 h with h | h
        · rcases urlMatchAt_shape hm with ⟨run, h1, h2, h3, _⟩
          exact ⟨run, h1, h2, h ▸ h3⟩
        · exact ih rem u h

end UrlRegex

section Base64AndText

/-- Value of a standard-alphabet base64 character (after the urlsafe
translation `- → +`, `_ → /`). -/
def b64CharVal (c : Char) : Option Nat :=
  if 'A' ≤ c && c ≤ 'Z' then some (c.toNat - 65)
  else if 'a' ≤ c && c ≤ 'z' then some (c.toNat - 71)
  else if '0' ≤ c && c ≤ '9' then some (c.toNat + 4)
  else if c = '+' then some 62
  else if c = '/' then some 63
  else none

/-- Bytes of a complete 4-sextet group. -/
def emitQuad (v0 v1 v2 v3 : Nat) : List Nat :=
  [v0 * 4 + v1 / 16, (v1 % 16) * 16 + v2 / 4, (v2 % 4) * 64 + v3]

/-- Bytes of a padding-terminated partial group (2 or 3 sextets). -/
def emitPartial : List Nat → List Nat
  | [v0, v1] => [v0 * 4 + v1 / 16]
  | [v0, v1, v2] => [v0 * 4 + v1 / 16, (v1 % 16) * 16 + v2 / 4]
  | _ => []

/-- Model of CPython `binascii.a2b_base64` in non-strict mode (the mode
`base64.b64decode` uses with `validate=False`): characters outside the
alphabet are skipped, `=` before two data sextets is ignored, enough `=`
padding after two or three sextets finishes decoding and discards the rest,
and a leftover partial group at the end is an error (`none`). -/
def a2bBase64 : List Char → List Nat → Nat → Option (List Nat)
  | [], pending, pads =>
    if pending.isEmpty && pads == 0 then some [] else none
  | c :: rest, pending, pads =>
    if c = '=' then
      if 2 ≤ pending.length then
        if 4 ≤ pending.length + pads + 1 then some (emitPartial pending)
        else a2bBase64 rest pending (pads + 1)
      else a2bBase64 rest pending pads
    else
      match b64CharVal c with
      | none => a2bBase64 rest pending pads
      | some v =>
        match pending with
        | [v0, v1, v2] => (a2bBase64 rest [] pads).map (emitQuad v0 v1 v2 v ++ ·)
        | _ => a2bBase64 rest (pending ++ [v]) pads

/-- Strict UTF-8 decoding of a byte list (Python `bytes.decode('utf-8')`):
rejects truncated sequences, bad continuation bytes, overlong forms,
surrogates and values beyond U+10FFFF. -/
def utf8Decode : List Nat → Option (List Char)
  | [] => some []
  | b :: rest =>
    if b < 0x80 then (utf8Decode rest).map (Char.ofNat b :: ·)
    else if 0xC2 ≤ b && b ≤ 0xDF then
      match rest with
      | b2 :: rest2 =>
        if 0x80 ≤ b2 && b2 ≤ 0xBF then
          (utf8Decode rest2).map (Char.ofNat ((b - 0xC0) * 64 + (b2 - 0x80)) :: ·)
        else none
      | [] => none
    else if 0xE0 ≤ b && b ≤ 0xEF then
      match rest with
      | b2 :: b3 :: rest3 =>
        if (if b = 0xE0 then 0xA0 else 0x80) ≤ b2 &&
            b2 ≤ (if b = 0xED then 0x9F else 0xBF) &&
            0x80 ≤ b3 && b3 ≤ 0xBF then
          (utf8Decode rest3).map
            (Char.ofNat ((b - 0xE0) * 4096 + (b2 - 0x80) * 64 + (b3 - 0x80)) :: ·)
        else none
      | _ => none
    else if 0xF0 ≤ b && b ≤ 0xF4 then
      match rest with
      | b2 :: b3 :: b4 :: rest4 =>
        if (if b = 0xF0 then 0x90 else 0x80) ≤ b2 &&
            b2 ≤ (if b = 0xF4 then 0x8F else 0xBF) &&
            0x80 ≤ b3 && b3 ≤ 0xBF && 0x80 ≤ b4 && b4 ≤ 0xBF then
          (utf8Decode rest4).map
            (Char.ofNat ((b - 0xF0) * 262144 + (b2 - 0x80) * 4096 +
              (b3 - 0x80) * 64 + (b4 - 0x80)) :: ·)
        else none
      | _ => none
    else none

/-- Model of `base64.urlsafe_b64decode(content).decode('utf-8')` on a Python
`str`: non-ASCII input fails the implicit ASCII encoding, then `-`/`_` are
translated to `+`/`/`, the result is base64-decoded in non-strict mode, and
the bytes are decoded as UTF-8.  Any failure yields `none` (an exception in
Python, swallowed by the caller's bare `except`). -/
def urlsafeB64DecodeText (s : String) : Option String :=
  if s.data.any (fun c => 128 ≤ c.toNat) then none
  else
    match a2bBase64 (s.data.map (fun c =>
        if c = '-' then '+' else if c = '_' then '/' else c)) [] 0 with
    | none => none
    | some bytes => (utf8Decode bytes).map String.mk

/-- The line-boundary characters of Python `str.splitlines`. -/
def isLineBreakChar (c : Char) : Bool :=
  c == '\n' || c == '\r' || c == '\x0b' || c == '\x0c' ||
  c == '\x1c' || c == '\x1d' || c == '\x1e' || c == '\x85' ||
  c == ' ' || c == ' '

/-- Model of Python `str.splitlines`: split at line boundaries (with `\r\n`
counting as one boundary), no trailing empty line for a trailing boundary,
`[]` for the empty string.  `cur` is the reversed current line; `afterCR`
records that the previous character was a `\r` whose line was already
emitted, so an immediately following `\n` is consumed silently. -/
def splitlinesAux (afterCR : Bool) (cur : List Char) : List Char → List (List Char)
  | [] => if cur.isEmpty then [] else [cur.reverse]
  | c :: rest =>
    if afterCR && c == '\n' then splitlinesAux false cur rest
    else if c = '\r' then cur.reverse :: splitlinesAux true [] rest
    else if isLineBreakChar c then cur.reverse :: splitlinesAux false [] rest
    else splitlinesAux false (c :: cur) rest

/-- Model of Python `str.split("  ")`: split at each non-overlapping
occurrence of two consecutive spaces, scanning left to right.  `pend`
records a single space seen but not yet committed: a second space makes it a
separator, any other character makes it a literal space. -/
def splitTwoSpaceAux (pend : Bool) (cur : List Char) : List Char → List (List Char)
  | [] => [(if pend then ' ' :: cur else cur).reverse]
  | c :: rest =>
    if c = ' ' then
      if pend then cur.reverse :: splitTwoSpaceAux false [] rest
      else splitTwoSpaceAux true cur rest
    else
      if pend then splitTwoSpaceAux false (c :: ' ' :: cur) rest
      else splitTwoSpaceAux false (c :: cur) rest

/-- Whitespace characters stripped by Python `str.strip` (the ASCII ones plus
the common Unicode line/space separators; a faithful superset is irrelevant
here since stripping only removes characters). -/
def isPySpace (c : Char) : Bool :=
  c == ' ' || c == '\t' || c == '\n' || c == '\r' || c == '\x0b' ||
  c == '\x0c' || c == '\x1c' || c == '\x1d' || c == '\x1e' || c == '\x85' ||
  c == '\xa0' || c == ' ' || c == ' ' || c == '　'

/-- Model of Python `str.strip()`. -/
def pyStrip (l : List Char) : List Char :=
  ((l.dropWhile isPySpace).reverse.dropWhile isPySpace).reverse

/-- Model of Python `' '.join(...)`. -/
def joinWithSpace : List (List Char) → List Char
  | [] => []
  | x :: xs => x ++ (if xs.isEmpty then [] else ' ' :: joinWithSpace xs)

/-- Drop everything up to and including the next `>`. -/
def dropThroughGt : List Char → List Char
  | [] => []
  | '>' :: rest => rest
  | _ :: rest => dropThroughGt rest

/-- Drop everything before the first occurrence of `pat`, then drop `pat`. -/
def dropThroughSeq (pat : List Char) : List Char → List Char
  | [] => []
  | c :: rest =>
    if (c :: rest).take pat.length = pat then (c :: rest).drop pat.length
    else dropThroughSeq pat rest

/-- Modelled from the spec: `BeautifulSoup(content, 'html.parser')` with
`script`/`style` elements decomposed and then `get_text()` is an external
library call, not code of this repository; per spec §4.1 it removes the
content of `script` and `style` elements entirely and strips the remaining
markup, keeping the visible text.  On markup-free input it is the identity.
(Entity decoding and malformed-markup recovery are not modelled; no claim
depends on them.) -/
def stripHtmlFuel : Nat → List Char → List Char
  | 0, _ => []
  | _ + 1, [] => []
  | fuel + 1, '<' :: rest =>
    if rest.take 6 = "script".data then
      stripHtmlFuel fuel (dropThroughGt (dropThroughSeq "</script".data rest))
    else if rest.take 5 = "style".data then
      stripHtmlFuel fuel (dropThroughGt (dropThroughSeq "</style".data rest))
    else stripHtmlFuel fuel (dropThroughGt rest)
  | fuel + 1, c :: rest => c :: stripHtmlFuel fuel rest

def soupGetText (s : String) : String :=
  String.mk (stripHtmlFuel s.data.length s.data)

/-- The whitespace-collapse step shared by both `clean_email_content`
variants: strip each line, split each on double spaces, strip the pieces,
join the nonempty ones with single spaces. -/
def collapseWhitespace (text : String) : String :=
  String.mk (joinWithSpace
    ((((splitlinesAux false [] text.data).map pyStrip).map
        (fun line => (splitTwoSpaceAux false [] line).map pyStrip)).flatten.filter
      (fun chunk => !chunk.isEmpty)))

end Base64AndText

section UrlparseAndBody

/-- Characters allowed in a URL scheme by `urllib.parse`. -/
def schemeChar (c : Char) : Bool :=
  ('a' ≤ c && c ≤ 'z') || ('A' ≤ c && c ≤ 'Z') ||
  ('0' ≤ c && c ≤ '9') || c == '+' || c == '-' || c == '.'

/-- Model of `urllib.parse.urlparse(url).netloc`: split off `scheme:` when a
colon at a positive index is preceded only by scheme characters; when the
remainder starts with `//`, the netloc runs to the first `/`, `?` or `#`;
unbalanced square brackets raise `ValueError` (`none`); without `//` the
netloc is empty. -/
def parseNetloc (url : String) : Option String :=
  let l := url.data
  let pre := l.takeWhile (fun c => !(c == ':'))
  let rest :=
    if (l.dropWhile (fun c => !(c == ':'))).isEmpty then l
    else if !pre.isEmpty && pre.all schemeChar then
      (l.dropWhile (fun c => !(c == ':'))).tail
    else l
  if rest.take 2 = ['/', '/'] then
    let nl := (rest.drop 2).takeWhile
      (fun c => !(c == '/') && !(c == '?') && !(c == '#'))
    if ('[' ∈ nl && !(']' ∈ nl : Bool)) || (']' ∈ nl && !('[' ∈ nl : Bool)) then
      none
    else
      some (String.mk nl)
  else some ""

/-- One body part of a Gmail API message payload: its declared MIME type and
the optional `body.data` payload (`part['body'].get('data', '')` defaults a
missing payload to the empty string). -/
structure MessagePart where
  mimeType : String
  data : Option String
deriving DecidableEq

/-- A Gmail API message payload, as `get_email_content` reads it: either a
list under the `parts` key, or a single unparted `body` whose optional `data`
is used directly. -/
structure MessagePayload where
  parts : Option (List MessagePart)
  data : Option String
deriving DecidableEq

/-- The body-selection loop of `get_email_content` (both files): walk the
parts, return the first `text/plain` part's data immediately (`break`),
meanwhile overwriting `body` with each `text/html` part's data seen so far. -/
def selectBodyLoop (body : String) : List MessagePart → String
  | [] => body
  | p :: ps =>
    if p.mimeType = "text/plain" then p.data.getD ""
    else if p.mimeType = "text/html" then selectBodyLoop (p.data.getD "") ps
    else selectBodyLoop body ps

/-- Body selection of `get_email_content` (identical in
`gmail_ai_summarizer.py` lines 128-137 and `gmail_url_extractor.py` lines
118-128): the parts loop when `parts` is present, otherwise the unparted
body's data (default `''`). -/
def select_body (payload : MessagePayload) : String :=
  match payload.parts with
  | some parts => selectBodyLoop "" parts
  | none => payload.data.getD ""

end UrlparseAndBody

namespace GmailAISummarizer

/-- `GmailAISummarizer.extract_urls_from_text` (gmail_ai_summarizer.py
83-87): `re.findall` of the URL pattern over the text, then
`list(set(urls))`. -/
def extract_urls_from_text (text : String) : List String :=
  firstSeen ((findAllUrls text.data.length text.data).map String.mk)

/-- `GmailAISummarizer.clean_email_content` (gmail_ai_summarizer.py 89-115):
empty input short-circuits to `""`; a successful
`base64.urlsafe_b64decode(...).decode('utf-8')` replaces the content and any
decode failure silently keeps the original; the text is run through
BeautifulSoup (`soupGetText` model) and the whitespace collapse. -/
def clean_email_content (content : String) : String :=
  if content = "" then ""
  else
    collapseWhitespace (soupGetText
      (match urlsafeB64DecodeText content with
       | some decoded => decoded
       | none => content))

/-- One fetched email record, with the fields `create_digest` reads
(gmail_ai_summarizer.py 218-229). -/
structure Email where
  sender : String
  date : String
  urls : List String
  sentiment : String
  action_items : List String
deriving DecidableEq

/-- The digest dict built by `create_digest` for nonempty input
(gmail_ai_summarizer.py 269-279). -/
structure Digest where
  total_emails : Nat
  unique_urls : List String
  sentiment_distribution : List (String × Nat)
  action_items : List String
  top_senders : List (String × Nat)
  date_range_start : String
  date_range_end : String
deriving DecidableEq

/-- `GmailAISummarizer.create_digest` (gmail_ai_summarizer.py 242-279).
`if not emails: return {}` returns an EMPTY dict — modelled as `none`, since
the returned object carries none of the digest keys.  Otherwise: `all_urls`
concatenates the per-record URL lists; `unique_urls = list(set(all_urls))`;
sentiment and sender counting loops are the insertion-ordered dict fold
`keyCounts`; `top_senders` is the stable descending-by-count sort truncated
to 5; the date range takes the last and first records' date strings. -/
def create_digest (emails : List Email) : Option Digest :=
  if emails = [] then none
  else
    some
      { total_emails := emails.length
        unique_urls := firstSeen ((emails.map (fun e => e.urls)).flatten)
        sentiment_distribution := keyCounts (emails.map (fun e => e.sentiment))
        action_items := (emails.map (fun e => e.action_items)).flatten
        top_senders :=
          (sortByCountDesc (keyCounts (emails.map (fun e => e.sender)))).take 5
        date_range_start := ((emails.getLast?).map (fun e => e.date)).getD ""
        date_range_end := ((emails.head?).map (fun e => e.date)).getD "" }

end GmailAISummarizer

namespace GmailURLExtractor

/-- `GmailURLExtractor.extract_urls_from_text` (gmail_url_extractor.py
74-78): textually identical to the summarizer variant. -/
def extract_urls_from_text (text : String) : List String :=
  firstSeen ((findAllUrls text.data.length text.data).map String.mk)

/-- `GmailURLExtractor.clean_email_content` (gmail_url_extractor.py 80-106):
textually identical to the summarizer variant. -/
def clean_email_content (content : String) : String :=
  if content = "" then ""
  else
    collapseWhitespace (soupGetText
      (match urlsafeB64DecodeText content with
       | some decoded => decoded
       | none => content))

/-- One fetched email record, with the fields this variant's `create_digest`
reads (gmail_url_extractor.py 157-165). -/
structure Email where
  sender : String
  date : String
  urls : List String
deriving DecidableEq

/-- The digest dict built by this variant's `create_digest` for nonempty
input (gmail_url_extractor.py 203-213). -/
structure Digest where
  total_emails : Nat
  unique_urls : List String
  total_urls : Nat
  top_senders : List (String × Nat)
  url_domains : List (String × Nat)
  date_range_start : String
  date_range_end : String
deriving DecidableEq

/-- The URL-domain counting loop of `create_digest` (gmail_url_extractor.py
194-201): for each url in `all_urls` — the concatenation over records, NOT
the deduplicated set — parse the netloc and bump its count, skipping the
whole step when `urlparse` raises. -/
def domainCountsLoop (all_urls : List String) : List (String × Nat) :=
  all_urls.foldl
    (fun acc u =>
      match parseNetloc u with
      | some d => bump acc d
      | none => acc)
    []

/-- `GmailURLExtractor.create_digest` (gmail_url_extractor.py 178-213); empty
input returns the empty dict `{}` (`none`), nonempty input builds the digest,
with `url_domains` sorted stably by descending count and truncated to 10. -/
def create_digest (emails : List Email) : Option Digest :=
  if emails = [] then none
  else
    some
      { total_emails := emails.length
        unique_urls := firstSeen ((emails.map (fun e => e.urls)).flatten)
        total_urls := ((emails.map (fun e => e.urls)).flatten).length
        top_senders :=
          (sortByCountDesc (keyCounts (emails.map (fun e => e.sender)))).take 5
        url_domains :=
          (sortByCountDesc
            (domainCountsLoop ((emails.map (fun e => e.urls)).flatten))).take 10
        date_range_start := ((emails.getLast?).map (fun e => e.date)).getD ""
        date_range_end := ((emails.head?).map (fun e => e.date)).getD "" }

end GmailURLExtractor

section ClaimTheorems

theorem stringMk_append (a b : List Char) :
    String.mk (a ++ b) = String.mk a ++ String.mk b := rfl

/-- C10: the two files implement the same text pipeline: for every input
string the two `extract_urls_from_text` functions agree and the two
`clean_email_content` functions agree. -/
theorem claim_c10_pipeline_equivalence :
    (∀ text : String,
      GmailAISummarizer.extract_urls_from_text text =
        GmailURLExtractor.extract_urls_from_text text) ∧
    (∀ content : String,
      GmailAISummarizer.clean_email_content content =
        GmailURLExtractor.clean_email_content content) :=
  ⟨fun _ => rfl, fun _ => rfl⟩

/-- C2 counterexample: on the empty input `create_digest` returns the empty
dict `{}` (modelled `none`), which carries NO `total_emails` field at all —
it is not a digest object with `total_emails = 0`. -/
theorem claim_c2_counterexample :
    GmailAISummarizer.create_digest [] = none ∧
    (GmailAISummarizer.create_digest []).map (fun d => d.total_emails) ≠
      some 0 := by
  exact ⟨rfl, by decide⟩

/-- C2 amended: for the empty input sequence both `create_digest` variants
return the empty dict (`{}`, modelled `none`) — no digest fields, in
particular no `total_emails` key — and do not raise an error. -/
theorem claim_c2_amended :
    GmailAISummarizer.create_digest [] = none ∧
    GmailURLExtractor.create_digest [] = none :=
  ⟨rfl, rfl⟩

/-- C3: for every input text the extracted URL list has no duplicates and
every element begins with `http://` or `https://`; the empty text yields the
empty list. -/
theorem claim_c3_url_extraction :
    (∀ text : String,
      (GmailAISummarizer.extract_urls_from_text text).Nodup ∧
      ∀ u ∈ GmailAISummarizer.extract_urls_from_text text,
        ∃ rest : String, u = "http://" ++ rest ∨ u = "https://" ++ rest) ∧
    GmailAISummarizer.extract_urls_from_text "" = [] := by
  constructor
  · intro text
    refine ⟨nodup_firstSeen _, ?_⟩
    intro u hu
    rw [GmailAISummarizer.extract_urls_from_text, mem_firstSeen] at hu
    rcases List.mem_map.1 hu with ⟨lc, hlc, rfl⟩
    rcases findAllUrls_shape _ _ _ hlc with ⟨run, _, _, h | h⟩
    · exact ⟨String.mk run, Or.inr (by rw [h]; rfl)⟩
    · exact ⟨String.mk run, Or.inl (by rw [h]; rfl)⟩
  · rfl

/-- C3 witness: a concrete instantiation on `"go to http://a now"`. -/
theorem claim_c3_witness :
    (GmailAISummarizer.extract_urls_from_text "go to http://a now").Nodup ∧
    (∃ rest : String,
      "http://a" = "http://" ++ rest ∨ "http://a" = "https://" ++ rest) :=
  ⟨(claim_c3_url_extraction.1 "go to http://a now").1,
   (claim_c3_url_extraction.1 "go to http://a now").2 "http://a" (by decide)⟩

/-- C4 counterexample: the regex's character class `[$-_@.&+]` is a RANGE
`$`..`_`, so `?`, `=`, `%` before non-hex, and (via `[!*\\(\\),]`) the
backslash are all kept inside matches, contradicting the claim's exact
character set (which rejects `?`/`=`/bare `%`/backslash). -/
theorem claim_c4_counterexample :
    GmailAISummarizer.extract_urls_from_text
        "http://a?b=c x http://a\\b y http://c%zz" =
      ["http://a?b=c", "http://a\\b", "http://c%zz"] ∧
    ("http://a\\b" : String) ≠ "http://a" ∧
    ("http://c%zz" : String) ≠ "http://c" := by
  exact ⟨by decide, by decide, by decide⟩

/-- C4 amended: every character of a match after the scheme is drawn from
the regex's actual class — letters, digits, the ASCII range `$`..`_` (which
includes `/ : ; < = > ? @ [ \ ] ^` and `%` on its own), and `! * \ ( ) ,` —
the run is nonempty, and each match extends maximally: the input character
immediately after the match (if any) is outside this set. -/
theorem claim_c4_amended :
    (∀ l u rem, urlMatchAt l = some (u, rem) →
      ∃ run, run ≠ [] ∧ (∀ c ∈ run, allowedUrlChar c = true) ∧
        (u = httpsChars ++ run ∨ u = httpChars ++ run) ∧
        ∀ c, rem.head? = some c → allowedUrlChar c = false) ∧
    (∀ fuel l u, u ∈ findAllUrls fuel l →
      ∃ run, run ≠ [] ∧ (∀ c ∈ run, allowedUrlChar c = true) ∧
        (u = httpsChars ++ run ∨ u = httpChars ++ run)) :=
  ⟨fun _ _ _ h => urlMatchAt_shape h, findAllUrls_shape⟩

/-- C4 witness: the match at `"http://ab cd"` is `"http://ab"`, stops at the
space. -/
theorem claim_c4_witness :
    ∃ run, run ≠ [] ∧ (∀ c ∈ run, allowedUrlChar c = true) ∧
      ("http://ab".data = httpsChars ++ run ∨
        "http://ab".data = httpChars ++ run) ∧
      ∀ c, (" cd".data).head? = some c → allowedUrlChar c = false :=
  claim_c4_amended.1 "http://ab cd".data "http://ab".data " cd".data (by decide)

/-- C5 counterexample: on the spec's example text the trailing sentence
period IS part of the second match (`.` lies in the range `$`..`_`), so the
result contains `"http://x.io."` and not `"http://x.io"`. -/
theorem claim_c5_counterexample :
    GmailAISummarizer.extract_urls_from_text
        "Visit https://example.com/page?a=1 now and http://x.io." =
      ["https://example.com/page?a=1", "http://x.io."] ∧
    "http://x.io" ∉ GmailAISummarizer.extract_urls_from_text
        "Visit https://example.com/page?a=1 now and http://x.io." := by
  exact ⟨by decide, by decide⟩

/-- C5 amended: on that text the extractor returns exactly the set
`{"https://example.com/page?a=1", "http://x.io."}` — the trailing period is
included, since `.` is in the allowed character set. -/
theorem claim_c5_amended :
    ∀ u : String,
      u ∈ GmailAISummarizer.extract_urls_from_text
          "Visit https://example.com/page?a=1 now and http://x.io." ↔
        (u = "https://example.com/page?a=1" ∨ u = "http://x.io.") := by
  intro u
  have h : GmailAISummarizer.extract_urls_from_text
      "Visit https://example.com/page?a=1 now and http://x.io." =
      ["https://example.com/page?a=1", "http://x.io."] := by decide
  rw [h]
  simp

end ClaimTheorems

section DigestTheorems

/-- C1: for every non-empty record sequence, both `create_digest` variants
produce a digest whose `total_emails` is the input length and whose
`unique_urls` is the set union of the records' `urls` lists (no duplicates,
membership is exactly membership in some record), with cardinality at most
the sum of the per-record URL counts. -/
theorem claim_c1_digest_invariants
    (es : List GmailAISummarizer.Email) (ex : List GmailURLExtractor.Email)
    (hs : es ≠ []) (hx : ex ≠ []) :
    (∃ d, GmailAISummarizer.create_digest es = some d ∧
      d.total_emails = es.length ∧
      d.unique_urls.Nodup ∧
      (∀ u, u ∈ d.unique_urls ↔ ∃ e ∈ es, u ∈ e.urls) ∧
      d.unique_urls.length ≤ (es.map (fun e => e.urls.length)).sum) ∧
    (∃ d, GmailURLExtractor.create_digest ex = some d ∧
      d.total_emails = ex.length ∧
      d.unique_urls.Nodup ∧
      (∀ u, u ∈ d.unique_urls ↔ ∃ e ∈ ex, u ∈ e.urls) ∧
      d.unique_urls.length ≤ (ex.map (fun e => e.urls.length)).sum) := by
  constructor
  · rw [GmailAISummarizer.create_digest, if_neg hs]
    refine ⟨_, rfl, rfl, nodup_firstSeen _, ?_, ?_⟩
    · intro u
      rw [mem_firstSeen, List.mem_flatten]
      constructor
      · rintro ⟨l, hl, hu⟩
        rcases List.mem_map.1 hl with ⟨e, he, rfl⟩
        exact ⟨e, he, hu⟩
      · rintro ⟨e, he, hu⟩
        exact ⟨e.urls, List.mem_map.2 ⟨e, he, rfl⟩, hu⟩
    · calc (firstSeen ((es.map (fun e => e.urls)).flatten)).length
          ≤ ((es.map (fun e => e.urls)).flatten).length := length_firstSeen_le _
        _ = (es.map (fun e => e.urls.length)).sum := by
            rw [List.length_flatten, List.map_map]; rfl
  · rw [GmailURLExtractor.create_digest, if_neg hx]
    refine ⟨_, rfl, rfl, nodup_firstSeen _, ?_, ?_⟩
    · intro u
      rw [mem_firstSeen, List.mem_flatten]
      constructor
      · rintro ⟨l, hl, hu⟩
        rcases List.mem_map.1 hl with ⟨e, he, rfl⟩
        exact ⟨e, he, hu⟩
      · rintro ⟨e, he, hu⟩
        exact ⟨e.urls, List.mem_map.2 ⟨e, he, rfl⟩, hu⟩
    · calc (firstSeen ((ex.map (fun e => e.urls)).flatten)).length
          ≤ ((ex.map (fun e => e.urls)).flatten).length := length_firstSeen_le _
        _ = (ex.map (fun e => e.urls.length)).sum := by
            rw [List.length_flatten, List.map_map]; rfl

def c1EmailS : GmailAISummarizer.Email :=
  ⟨"A", "d", ["http://x", "http://y"], "neutral", []⟩

def c1EmailX : GmailURLExtractor.Email := ⟨"B", "d2", ["http://x"]⟩

/-- C1 witness: the invariants instantiated on concrete singleton batches. -/
theorem claim_c1_witness :
    (∃ d, GmailAISummarizer.create_digest [c1EmailS] = some d ∧
      d.total_emails = [c1EmailS].length ∧
      d.unique_urls.Nodup ∧
      (∀ u, u ∈ d.unique_urls ↔ ∃ e ∈ [c1EmailS], u ∈ e.urls) ∧
      d.unique_urls.length ≤ ([c1EmailS].map (fun e => e.urls.length)).sum) ∧
    (∃ d, GmailURLExtractor.create_digest [c1EmailX] = some d ∧
      d.total_emails = [c1EmailX].length ∧
      d.unique_urls.Nodup ∧
      (∀ u, u ∈ d.unique_urls ↔ ∃ e ∈ [c1EmailX], u ∈ e.urls) ∧
      d.unique_urls.length ≤ ([c1EmailX].map (fun e => e.urls.length)).sum) :=
  claim_c1_digest_invariants [c1EmailS] [c1EmailX] (by decide) (by decide)

/-- C8: for every non-empty record sequence, `top_senders` equals the
grouping of records by exact sender string — distinct senders in order of
first appearance, each with its occurrence count — stably sorted by
descending count (ties keep first-appearance order) and truncated to 5, and
it is indeed sorted by descending count. -/
theorem claim_c8_top_senders (emails : List GmailAISummarizer.Email)
    (h : emails ≠ []) :
    ∃ d, GmailAISummarizer.create_digest emails = some d ∧
      d.top_senders =
        (sortByCountDesc ((firstSeen (emails.map (fun e => e.sender))).map
          (fun s => (s, countOcc s (emails.map (fun e => e.sender)))))).take 5 ∧
      d.top_senders.Pairwise (fun p q => q.2 ≤ p.2) := by
  rw [GmailAISummarizer.create_digest, if_neg h]
  refine ⟨_, rfl, ?_, ?_⟩
  · simp only [keyCounts_eq]
  · exact (pairwise_sortByCountDesc _).sublist (List.take_sublist _ _)

def c8Emails : List GmailAISummarizer.Email :=
  [⟨"A", "1", [], "neutral", []⟩, ⟨"B", "2", [], "neutral", []⟩,
   ⟨"A", "3", [], "neutral", []⟩, ⟨"C", "4", [], "neutral", []⟩,
   ⟨"B", "5", [], "neutral", []⟩, ⟨"A", "6", [], "neutral", []⟩]

/-- C8 witness: on senders `[A, B, A, C, B, A]` the digest's `top_senders`
is `[(A,3), (B,2), (C,1)]`, matching the characterization. -/
theorem claim_c8_witness :
    (∃ d, GmailAISummarizer.create_digest c8Emails = some d ∧
      d.top_senders =
        (sortByCountDesc ((firstSeen (c8Emails.map (fun e => e.sender))).map
          (fun s => (s, countOcc s (c8Emails.map (fun e => e.sender)))))).take 5 ∧
      d.top_senders.Pairwise (fun p q => q.2 ≤ p.2)) ∧
    (GmailAISummarizer.create_digest c8Emails).map (fun d => d.top_senders) =
      some [("A", 3), ("B", 2), ("C", 1)] :=
  ⟨claim_c8_top_senders c8Emails (by decide), by decide⟩

theorem foldl_netloc_eq : ∀ (l : List String) (acc : List (String × Nat)),
    l.foldl
      (fun acc u =>
        match parseNetloc u with
        | some d => bump acc d
        | none => acc) acc =
    (l.filterMap parseNetloc).foldl bump acc := by
  intro l
  induction l with
  | nil => intro acc; rfl
  | cons u l ih =>
    intro acc
    rw [List.foldl_cons, List.filterMap_cons]
    rcases hp : parseNetloc u with _ | d <;> simp only [hp] <;>
      [exact ih acc; exact (by rw [List.foldl_cons]; exact ih (bump acc d))]

/-- The URL-domain loop counts over the multiset of parseable URLs. -/
theorem domainCountsLoop_eq (l : List String) :
    GmailURLExtractor.domainCountsLoop l = keyCounts (l.filterMap parseNetloc) := by
  rw [GmailURLExtractor.domainCountsLoop, keyCounts, foldl_netloc_eq]

/-- C9 counterexample: the same URL appearing in two different records is
counted TWICE in `url_domains` — the loop runs over the concatenation
`all_urls`, not over the deduplicated `unique_urls` — so the claim's
once-per-distinct-URL counting is wrong. -/
theorem claim_c9_counterexample :
    (GmailURLExtractor.create_digest
        [⟨"s1", "d1", ["http://a.com/x"]⟩,
         ⟨"s2", "d2", ["http://a.com/x"]⟩]).map (fun d => d.url_domains) =
      some [("a.com", 2)] ∧
    some [(("a.com" : String), 2)] ≠ some [(("a.com" : String), 1)] :=
  ⟨by decide, by decide⟩

/-- C9 amended: `url_domains` is computed over the CONCATENATION of all
records' URL lists (a URL occurring in k records contributes k), mapping each
parseable URL to its authority component, grouping in first-seen order with
occurrence counts, stably sorted by descending count and truncated to 10;
and the result is sorted by descending count. -/
theorem claim_c9_amended (emails : List GmailURLExtractor.Email)
    (h : emails ≠ []) :
    ∃ d, GmailURLExtractor.create_digest emails = some d ∧
      d.url_domains =
        (sortByCountDesc
          ((firstSeen (((emails.map (fun e => e.urls)).flatten).filterMap
              parseNetloc)).map
            (fun k => (k, countOcc k (((emails.map (fun e => e.urls)).flatten).filterMap
              parseNetloc))))).take 10 ∧
      d.url_domains.Pairwise (fun p q => q.2 ≤ p.2) := by
  rw [GmailURLExtractor.create_digest, if_neg h]
  refine ⟨_, rfl, ?_, ?_⟩
  · simp only [domainCountsLoop_eq, keyCounts_eq]
  · exact (pairwise_sortByCountDesc _).sublist (List.take_sublist _ _)

def c9Emails : List GmailURLExtractor.Email :=
  [⟨"s1", "d1", ["http://a.com/x", "http://b.org/y"]⟩,
   ⟨"s2", "d2", ["http://a.com/z"]⟩]

/-- C9 witness: the amended characterization instantiated on a concrete
batch. -/
theorem claim_c9_witness :
    ∃ d, GmailURLExtractor.create_digest c9Emails = some d ∧
      d.url_domains =
        (sortByCountDesc
          ((firstSeen (((c9Emails.map (fun e => e.urls)).flatten).filterMap
              parseNetloc)).map
            (fun k => (k, countOcc k (((c9Emails.map (fun e => e.urls)).flatten).filterMap
              parseNetloc))))).take 10 ∧
      d.url_domains.Pairwise (fun p q => q.2 ≤ p.2) :=
  claim_c9_amended c9Emails (by decide)

end DigestTheorems

section BodySelectionTheorems

theorem selectBodyLoop_plain :
    ∀ (parts : List MessagePart) (body : String) (p : MessagePart),
      parts.find? (fun q => q.mimeType == "text/plain") = some p →
      selectBodyLoop body parts = p.data.getD "" := by
  intro parts
  induction parts with
  | nil => intro body p h; simp at h
  | cons q ps ih =>
    intro body p h
    by_cases hq : q.mimeType = "text/plain"
    · rw [List.find?_cons_of_pos _ (by simp [hq])] at h
      injection h with h
      subst h
      simp only [selectBodyLoop, if_pos hq]
    · rw [List.find?_cons_of_neg _ (by simp [hq])] at h
      simp only [selectBodyLoop, if_neg hq]
      by_cases hh : q.mimeType = "text/html"
      · rw [if_pos hh]; exact ih _ p h
      · rw [if_neg hh]; exact ih _ p h

theorem selectBodyLoop_html :
    ∀ (parts : List MessagePart) (body : String),
      (∀ q ∈ parts, q.mimeType ≠ "text/plain") →
      selectBodyLoop body parts =
        (((parts.filter (fun q => q.mimeType == "text/html")).getLast?).map
          (fun p => p.data.getD "")).getD body := by
  intro parts
  induction parts with
  | nil => intro body _; simp [selectBodyLoop]
  | cons q ps ih =>
    intro body h
    have hq : q.mimeType ≠ "text/plain" := h q (List.mem_cons_self _ _)
    simp only [selectBodyLoop, if_neg hq]
    by_cases hh : q.mimeType = "text/html"
    · rw [if_pos hh, ih _ (fun r hr => h r (List.mem_cons_of_mem _ hr)),
        List.filter_cons_of_pos (by simp [hh])]
      rcases hfe : ps.filter (fun r => r.mimeType == "text/html") with _ | ⟨r, rs⟩
      · rw [hfe]
        simp
      · rw [hfe, List.getLast?_cons_cons]
        cases hx : (r :: rs).getLast? with
        | none => simp at hx
        | some x => simp [hx]
    · rw [if_neg hh, ih _ (fun r hr => h r (List.mem_cons_of_mem _ hr)),
        List.filter_cons_of_neg (by simp [hh])]

/-- C7: body selection of `get_email_content`.  With a `parts` list: the
first declared `text/plain` part's payload wins; with no `text/plain` part,
the LAST declared `text/html` part's payload in scan order wins; with no
`parts` key, the single unparted body's payload is used directly. -/
theorem claim_c7_body_selection :
    (∀ (pl : MessagePayload) (parts : List MessagePart) (p : MessagePart),
      pl.parts = some parts →
      parts.find? (fun q => q.mimeType == "text/plain") = some p →
      select_body pl = p.data.getD "") ∧
    (∀ (pl : MessagePayload) (parts : List MessagePart) (p : MessagePart),
      pl.parts = some parts →
      (∀ q ∈ parts, q.mimeType ≠ "text/plain") →
      (parts.filter (fun q => q.mimeType == "text/html")).getLast? = some p →
      select_body pl = p.data.getD "") ∧
    (∀ pl : MessagePayload, pl.parts = none →
      select_body pl = pl.data.getD "") := by
  refine ⟨?_, ?_, ?_⟩
  · intro pl parts p hpl hf
    rw [select_body, hpl]
    exact selectBodyLoop_plain parts "" p hf
  · intro pl parts p hpl hnp hlast
    rw [select_body, hpl]
    show selectBodyLoop "" parts = p.data.getD ""
    rw [selectBodyLoop_html parts "" hnp, hlast]
    rfl
  · intro pl hpl
    rw [select_body, hpl]

def c7Payload : MessagePayload :=
  ⟨some [⟨"text/html", some "h"⟩, ⟨"text/plain", some "plain-data"⟩,
         ⟨"text/plain", some "other"⟩], none⟩

/-- C7 witness: on a concrete multipart payload the first `text/plain`
part's data is selected. -/
theorem claim_c7_witness : select_body c7Payload = "plain-data" :=
  claim_c7_body_selection.1 c7Payload
    [⟨"text/html", some "h"⟩, ⟨"text/plain", some "plain-data"⟩,
     ⟨"text/plain", some "other"⟩]
    ⟨"text/plain", some "plain-data"⟩ rfl (by decide)

end BodySelectionTheorems


section CleanContentTheorems

theorem mem_dropWhile_mem {α : Type*} {p : α → Bool} :
    ∀ {l : List α} {a : α}, a ∈ l.dropWhile p → a ∈ l := by
  intro l
  induction l with
  | nil => intro a h; simp [List.dropWhile] at h
  | cons b l ih =>
    intro a h
    rw [List.dropWhile] at h
    by_cases hb : p b
    · rw [hb] at h
      exact List.mem_cons_of_mem _ (ih h)
    · simp only [Bool.not_eq_true] at hb
      rw [hb] at h
      exact h

theorem mem_pyStrip {l : List Char} {c : Char} (h : c ∈ pyStrip l) : c ∈ l := by
  rw [pyStrip] at h
  exact mem_dropWhile_mem (List.mem_reverse.1 (mem_dropWhile_mem (List.mem_reverse.1 h)))

theorem splitlines_no_break :
    ∀ (l : List Char) (afterCR : Bool) (cur : List Char),
      (∀ c ∈ cur, isLineBreakChar c = false) →
      ∀ line ∈ splitlinesAux afterCR cur l, ∀ c ∈ line, isLineBreakChar c = false := by
  intro l
  induction l with
  | nil =>
    intro afterCR cur hcur line hline c hc
    rw [splitlinesAux] at hline
    by_cases he : cur.isEmpty
    · rw [if_pos he] at hline; simp at hline
    · rw [if_neg he] at hline
      rcases List.mem_singleton.1 hline with rfl
      exact hcur c (List.mem_reverse.1 hc)
  | cons b rest ih =>
    intro afterCR cur hcur line hline c hc
    rw [splitlinesAux] at hline
    by_cases h1 : (afterCR && b == '\n') = true
    · rw [if_pos h1] at hline
      exact ih false cur hcur line hline c hc
    · rw [if_neg h1] at hline
      by_cases h2 : b = '\r'
      · rw [if_pos h2] at hline
        rcases List.mem_cons.1 hline with rfl | hline
        · exact hcur c (List.mem_reverse.1 hc)
        · exact ih true [] (by simp) line hline c hc
      · rw [if_neg h2] at hline
        by_cases h3 : isLineBreakChar b = true
        · rw [if_pos h3] at hline
          rcases List.mem_cons.1 hline with rfl | hline
          · exact hcur c (List.mem_reverse.1 hc)
          · exact ih false [] (by simp) line hline c hc
        · rw [if_neg h3] at hline
          refine ih false (b :: cur) ?_ line hline c hc
          intro d hd
          rcases List.mem_cons.1 hd with rfl | hd
          · exact Bool.not_eq_true _ ▸ (Bool.eq_false_iff.2 h3)
          · exact hcur d hd

theorem splitTwoSpace_chars :
    ∀ (l : List Char) (pend : Bool) (cur : List Char) (frag : List Char),
      frag ∈ splitTwoSpaceAux pend cur l →
      ∀ c ∈ frag, c = ' ' ∨ c ∈ cur ∨ c ∈ l := by
  intro l
  induction l with
  | nil =>
    intro pend cur frag hfrag c hc
    rw [splitTwoSpaceAux] at hfrag
    rcases List.mem_singleton.1 hfrag with rfl
    have hm := List.mem_reverse.1 hc
    by_cases hp : pend
    · rw [if_pos hp] at hm
      rcases List.mem_cons.1 hm with rfl | h
      · exact Or.inl rfl
      · exact Or.inr (Or.inl h)
    · rw [if_neg hp] at hm
      exact Or.inr (Or.inl hm)
  | cons b rest ih =>
    intro pend cur frag hfrag c hc
    rw [splitTwoSpaceAux] at hfrag
    by_cases hb : b = ' '
    · rw [if_pos hb] at hfrag
      by_cases hp : pend
      · rw [if_pos hp] at hfrag
        rcases List.mem_cons.1 hfrag with rfl | hfrag
        · exact Or.inr (Or.inl (List.mem_reverse.1 hc))
        · rcases ih false [] frag hfrag c hc with h | h | h
          · exact Or.inl h
          · simp at h
          · exact Or.inr (Or.inr (List.mem_cons_of_mem _ h))
      · rw [if_neg hp] at hfrag
        rcases ih true cur frag hfrag c hc with h | h | h
        · exact Or.inl h
        · exact Or.inr (Or.inl h)
        · exact Or.inr (Or.inr (List.mem_cons_of_mem _ h))
    · rw [if_neg hb] at hfrag
      by_cases hp : pend
      · rw [if_pos hp] at hfrag
        rcases ih false (b :: ' ' :: cur) frag hfrag c hc with h | h | h
        · exact Or.inl h
        · rcases List.mem_cons.1 h with rfl | h
          · exact Or.inr (Or.inr (List.mem_cons_self _ _))
          · rcases List.mem_cons.1 h with rfl | h
            · exact Or.inl rfl
            · exact Or.inr (Or.inl h)
        · exact Or.inr (Or.inr (List.mem_cons_of_mem _ h))
      · rw [if_neg hp] at hfrag
        rcases ih false (b :: cur) frag hfrag c hc with h | h | h
        · exact Or.inl h
        · rcases List.mem_cons.1 h with rfl | h
          · exact Or.inr (Or.inr (List.mem_cons_self _ _))
          · exact Or.inr (Or.inl h)
        · exact Or.inr (Or.inr (List.mem_cons_of_mem _ h))

theorem joinWithSpace_chars :
    ∀ (ls : List (List Char)) (c : Char),
      c ∈ joinWithSpace ls → c = ' ' ∨ ∃ l ∈ ls, c ∈ l := by
  intro ls
  induction ls with
  | nil => intro c h; simp [joinWithSpace] at h
  | cons x xs ih =>
    intro c h
    rw [joinWithSpace] at h
    rcases List.mem_append.1 h with h | h
    · exact Or.inr ⟨x, List.mem_cons_self _ _, h⟩
    · by_cases he : xs.isEmpty
      · rw [if_pos he] at h; simp at h
      · rw [if_neg he] at h
        rcases List.mem_cons.1 h with rfl | h
        · exact Or.inl rfl
        · rcases ih c h with h | ⟨l, hl, hc⟩
          · exact Or.inl h
          · exact Or.inr ⟨l, List.mem_cons_of_mem _ hl, hc⟩

theorem collapseWhitespace_single_line (text : String) :
    ∀ c ∈ (collapseWhitespace text).data, isLineBreakChar c = false := by
  intro c hc
  rw [collapseWhitespace] at hc
  rcases joinWithSpace_chars _ c hc with rfl | ⟨chunk, hchunk, hcc⟩
  · rfl
  · have hchunk1 : chunk ∈ (((splitlinesAux false [] text.data).map pyStrip).map
        (fun line => (splitTwoSpaceAux false [] line).map pyStrip)).flatten :=
      (List.mem_filter.1 hchunk).1
    rcases List.mem_flatten.1 hchunk1 with ⟨group, hgroup, hchunk2⟩
    rcases List.mem_map.1 hgroup with ⟨line, hline, rfl⟩
    rcases List.mem_map.1 hchunk2 with ⟨frag, hfrag, rfl⟩
    have hcfrag : c ∈ frag := mem_pyStrip hcc
    rcases splitTwoSpace_chars line false [] frag hfrag c hcfrag with rfl | h | h
    · rfl
    · simp at h
    · rcases List.mem_map.1 hline with ⟨line0, hline0, rfl⟩
      exact splitlines_no_break text.data false [] (by simp) line0 hline0 c
        (mem_pyStrip h)

/-- C6: `clean_email_content` never raises (it is a total function by
construction): empty input yields the empty string, the malformed-base64
payload `"%%%not-base64%%%"` is silently treated as already-decoded literal
text, and for every input the output contains no line-boundary character —
it is a single whitespace-normalized line. -/
theorem claim_c6_clean_content :
    GmailAISummarizer.clean_email_content "" = "" ∧
    GmailAISummarizer.clean_email_content "%%%not-base64%%%" =
      "%%%not-base64%%%" ∧
    ∀ content : String,
      ∀ c ∈ (GmailAISummarizer.clean_email_content content).data,
        isLineBreakChar c = false := by
  refine ⟨rfl, by decide, ?_⟩
  intro content c hc
  rw [GmailAISummarizer.clean_email_content] at hc
  by_cases h : content = ""
  · rw [if_pos h] at hc; simp at hc
  · rw [if_neg h] at hc
    exact collapseWhitespace_single_line _ c hc

/-- C6 witness: concrete instantiation of the single-line property. -/
theorem claim_c6_witness : isLineBreakChar 'a' = false :=
  claim_c6_clean_content.2.2 "a" 'a' (by decide)

end CleanContentTheorems
